import Mathlib

/-!
Verification of the CUSIP normalization core of FinSTATA
(src/helpers/cusip_cleaner.py): the pure normalizer `clean_cusip` and the
file-level filtering step `clean_cusip_file` (dropna on the derived
canonical column followed by keep-first deduplication, guarded by a schema
check for the `cusip` column).

Strings are embedded as `List Char`; character classes are ASCII, matching
the regex `[^A-Z0-9]` of the source and the ASCII fragment of Python's
`str.upper` / `str.strip` (the only fragment that can influence the result,
since every non-ASCII character is removed by the regex substitution).
-/

namespace FinSTATA

/-- Characters permitted in a canonical CUSIP: uppercase letters A-Z
(codes 65-90) and digits 0-9 (codes 48-57); this is the character class
kept by `re.sub(r'[^A-Z0-9]', '', ...)` in `clean_cusip`. -/
def isCusipChar (c : Char) : Bool :=
  (65 ≤ c.toNat && c.toNat ≤ 90) || (48 ≤ c.toNat && c.toNat ≤ 57)

/-- Characterwise model of Python `str.upper`: a lowercase ASCII letter
a-z (codes 97-122) is mapped 32 code points down to its uppercase form;
every other character is left unchanged. -/
def pyUpperChar (c : Char) : Char :=
  if 97 ≤ c.toNat && c.toNat ≤ 122 then Char.ofNat (c.toNat - 32) else c

/-- ASCII whitespace removed by Python `str.strip`: space, tab, newline,
carriage return, vertical tab, form feed. -/
def isPyWhitespace (c : Char) : Bool :=
  c.toNat = 32 || c.toNat = 9 || c.toNat = 10 ||
  c.toNat = 13 || c.toNat = 11 || c.toNat = 12

/-- Python `str.strip`: drop leading and trailing whitespace. -/
def pyStrip (l : List Char) : List Char :=
  ((l.dropWhile isPyWhitespace).reverse.dropWhile isPyWhitespace).reverse

/-- The cleaned form computed by lines 16-17 of cusip_cleaner.py:
`cusip_str.strip().upper()` followed by
`re.sub(r'[^A-Z0-9]', '', cusip_str)`. -/
def cleanedForm (l : List Char) : List Char :=
  ((pyStrip l).map pyUpperChar).filter isCusipChar

/-- Length dispatch of `clean_cusip` (lines 19-31): fewer than 6 cleaned
characters yield the absent value; 6 or 7 are right-padded with zeros to
length 8; 8 is kept; 9 and anything longer are truncated to the first 8
characters (the source spells the two truncating branches separately, with
identical bodies). -/
def padTo8 (t : List Char) : Option (List Char) :=
  if t.length < 6 then none
  else if t.length = 6 then some (t ++ ['0', '0'])
  else if t.length = 7 then some (t ++ ['0'])
  else if t.length = 8 then some t
  else if t.length = 9 then some (t.take 8)
  else some (t.take 8)

/-- Scalar value reaching `clean_cusip` from a dataframe cell: `na` covers
None/NaN (caught by `pd.isna`); `str` is a Python string with its list of
characters; `nonStr` is any other scalar, carried by the character list of
its `str()` representation (line 16 converts with `str(...)` before
processing). -/
inductive PyValue where
  | na : PyValue
  | str : List Char → PyValue
  | nonStr : List Char → PyValue
deriving DecidableEq

/-- The `str()` representation used on line 16. For `na` the function
`clean_cusip` returns before ever converting, so the value chosen here is
irrelevant to every theorem below. -/
def pyStr : PyValue → List Char
  | PyValue.na => []
  | PyValue.str s => s
  | PyValue.nonStr r => r

/-- Core pipeline of `clean_cusip` after the absent/empty guard: clean the
characters, then dispatch on the cleaned length. -/
def clean_core (s : List Char) : Option (List Char) :=
  padTo8 (cleanedForm s)

/-- The function `clean_cusip` of cusip_cleaner.py. The guard
`pd.isna(cusip_str) or cusip_str == ''` returns None for the absent value
and for the empty string; a non-string scalar never equals `''` in Python,
so it always proceeds to `str(...)` and the core pipeline. -/
def clean_cusip (v : PyValue) : Option (List Char) :=
  match v with
  | PyValue.na => none
  | PyValue.str s => if s = [] then none else clean_core s
  | PyValue.nonStr r => clean_core r

/-- Records of the dataframe annotated with their original position and the
derived `cusip_clean` value, as produced by
`df['cusip_clean'] = df['cusip'].apply(clean_cusip)` (line 41). -/
def withClean (rows : List PyValue) : List (Nat × PyValue × Option (List Char)) :=
  rows.enum.map (fun p => (p.1, p.2, clean_cusip p.2))

/-- Model of `df.dropna(subset=['cusip_clean'])` (line 42): keep exactly the
rows whose derived canonical identifier is present. -/
def dropnaClean (l : List (Nat × PyValue × Option (List Char))) :
    List (Nat × PyValue × Option (List Char)) :=
  l.filter (fun p => p.2.2.isSome)

/-- Single left-to-right pass behind `df.drop_duplicates(subset=['cusip_clean'])`
(line 43, default `keep='first'`): a row is kept iff its key has not been
seen earlier in the pass. -/
def dedupFirstAux {α β : Type} [DecidableEq β] (key : α → β) :
    List β → List α → List α
  | _, [] => []
  | seen, x :: rest =>
    if key x ∈ seen then dedupFirstAux key seen rest
    else x :: dedupFirstAux key (key x :: seen) rest

/-- Model of `df.drop_duplicates(subset=['cusip_clean'])`: keep the first
row of each distinct `cusip_clean` value, in original order. -/
def dropDuplicatesClean (l : List (Nat × PyValue × Option (List Char))) :
    List (Nat × PyValue × Option (List Char)) :=
  dedupFirstAux (fun p => p.2.2) [] l

/-- The record transformation performed by `clean_cusip_file` when the
`cusip` column exists: derive `cusip_clean`, drop rows where it is absent,
then drop duplicate canonical identifiers keeping the first. -/
def processRows (rows : List PyValue) : List (Nat × PyValue × Option (List Char)) :=
  dropDuplicatesClean (dropnaClean (withClean rows))

/-- Input dataframe for `clean_cusip_file`: whether the `cusip` column is
present in the schema, and the cells of that column in row order. -/
structure DataFrame where
  hasCusipCol : Bool
  rows : List PyValue
deriving DecidableEq

/-- Observable outcome of `clean_cusip_file`: either the filtered records
were written to the output file (`ok`), or the `cusip` column was missing,
the function returned False and nothing was written (`schemaError`). -/
inductive FileResult where
  | ok : List (Nat × PyValue × Option (List Char)) → FileResult
  | schemaError : FileResult
deriving DecidableEq

/-- The function `clean_cusip_file` of cusip_cleaner.py (data logic): when
`'cusip' in df.columns` it filters the rows and writes them; otherwise it
prints a message and returns False before any write. -/
def clean_cusip_file (df : DataFrame) : FileResult :=
  if df.hasCusipCol then FileResult.ok (processRows df.rows)
  else FileResult.schemaError

/-- The three-record example of the spec: identifiers
"AB12340", "ab1234 0", "ZZ999999". -/
def exampleRows : List PyValue :=
  [PyValue.str ['A', 'B', '1', '2', '3', '4', '0'],
   PyValue.str ['a', 'b', '1', '2', '3', '4', ' ', '0'],
   PyValue.str ['Z', 'Z', '9', '9', '9', '9', '9', '9']]

/-! ### Character-level lemmas -/

/-- A character in the canonical class A-Z0-9 is not lowercase, so the
`upper()` step leaves it unchanged. -/
theorem pyUpperChar_of_cusip {c : Char} (h : isCusipChar c = true) :
    pyUpperChar c = c := by
  simp only [isCusipChar, Bool.or_eq_true, Bool.and_eq_true, decide_eq_true_eq] at h
  unfold pyUpperChar
  rw [if_neg]
  simp only [Bool.and_eq_true, decide_eq_true_eq, not_and, not_le]
  omega

/-- Whitespace is untouched by the `upper()` step and rejected by the
character class A-Z0-9. -/
theorem ws_upper_not_cusip {c : Char} (h : isPyWhitespace c = true) :
    isCusipChar (pyUpperChar c) = false := by
  simp only [isPyWhitespace, Bool.or_eq_true, decide_eq_true_eq] at h
  have hup : pyUpperChar c = c := by
    unfold pyUpperChar
    rw [if_neg]
    simp only [Bool.and_eq_true, decide_eq_true_eq, not_and, not_le]
    omega
  rw [hup]
  cases hb : isCusipChar c
  · rfl
  · exfalso
    simp only [isCusipChar, Bool.or_eq_true, Bool.and_eq_true, decide_eq_true_eq] at hb
    omega

/-! ### Lemmas about the cleaning pipeline -/

/-- Filtering commutes with a characterwise map, composing the predicate
with the map. -/
theorem filter_comm_map (f : Char → Char) (p : Char → Bool) :
    ∀ l : List Char, (l.map f).filter p = (l.filter fun c => p (f c)).map f := by
  intro l
  induction l with
  | nil => rfl
  | cons x xs ih =>
    by_cases h : p (f x) <;> simp [h, ih]

/-- Dropping a prefix of characters the filter would reject anyway does not
change the filtered result. -/
theorem filter_dropWhile (p q : Char → Bool) (h : ∀ c, p c = true → q c = false) :
    ∀ l : List Char, (l.dropWhile p).filter q = l.filter q := by
  intro l
  induction l with
  | nil => rfl
  | cons x xs ih =>
    by_cases hx : p x
    · rw [List.dropWhile_cons_of_pos hx, ih, List.filter_cons_of_neg]
      simp [h x hx]
    · rw [List.dropWhile_cons_of_neg hx]

/-- The `strip()` step is invisible to the cleaned form: whitespace would be
removed by the character filter in any case. -/
theorem cleanedForm_eq (l : List Char) :
    cleanedForm l = (l.map pyUpperChar).filter isCusipChar := by
  have hq : ∀ c, isPyWhitespace c = true →
      (fun c => isCusipChar (pyUpperChar c)) c = false := fun c hc => ws_upper_not_cusip hc
  unfold cleanedForm pyStrip
  rw [filter_comm_map, filter_comm_map, List.filter_reverse,
    filter_dropWhile _ _ hq, List.filter_reverse, List.reverse_reverse,
    filter_dropWhile _ _ hq]

/-- Every character of a cleaned form lies in the class A-Z0-9. -/
theorem cleanedForm_chars (l : List Char) :
    ∀ c ∈ cleanedForm l, isCusipChar c = true := by
  intro c hc
  exact (List.mem_filter.mp hc).2

/-- A string made only of characters from A-Z0-9 is a fixed point of the
cleaning pipeline. -/
theorem cleanedForm_fixed (r : List Char) (h : ∀ c ∈ r, isCusipChar c = true) :
    cleanedForm r = r := by
  rw [cleanedForm_eq]
  have hmap : r.map pyUpperChar = r := by
    conv_rhs => rw [← List.map_id r]
    exact List.map_congr_left (fun c hc => pyUpperChar_of_cusip (h c hc))
  rw [hmap]
  exact List.filter_eq_self.mpr h

/-! ### Lemmas about the length dispatch -/

/-- Whenever the length dispatch produces a value, the value has length
exactly 8. -/
theorem padTo8_length (t r : List Char) (h : padTo8 t = some r) : r.length = 8 := by
  unfold padTo8 at h
  by_cases h6 : t.length < 6
  · rw [if_pos h6] at h
    exact absurd h (by simp)
  rw [if_neg h6] at h
  by_cases e6 : t.length = 6
  · rw [if_pos e6, Option.some_inj] at h
    subst h
    simp only [List.length_append, List.length_cons, List.length_nil]
    omega
  rw [if_neg e6] at h
  by_cases e7 : t.length = 7
  · rw [if_pos e7, Option.some_inj] at h
    subst h
    simp only [List.length_append, List.length_cons, List.length_nil]
    omega
  rw [if_neg e7] at h
  by_cases e8 : t.length = 8
  · rw [if_pos e8, Option.some_inj] at h
    subst h
    exact e8
  rw [if_neg e8] at h
  by_cases e9 : t.length = 9
  · rw [if_pos e9, Option.some_inj] at h
    subst h
    simp only [List.length_take]
    omega
  · rw [if_neg e9, Option.some_inj] at h
    subst h
    simp only [List.length_take]
    omega

/-- Whenever the length dispatch produces a value from a string over
A-Z0-9, the value stays over A-Z0-9 (padding uses the digit zero;
truncation only removes characters). -/
theorem padTo8_chars (t r : List Char) (ht : ∀ c ∈ t, isCusipChar c = true)
    (h : padTo8 t = some r) : ∀ c ∈ r, isCusipChar c = true := by
  have happ : ∀ (pad : List Char), (∀ c ∈ pad, isCusipChar c = true) →
      ∀ c ∈ t ++ pad, isCusipChar c = true := by
    intro pad hp c hc
    rcases List.mem_append.mp hc with hm | hm
    · exact ht c hm
    · exact hp c hm
  have htake : ∀ c ∈ t.take 8, isCusipChar c = true :=
    fun c hc => ht c ((List.take_sublist 8 t).subset hc)
  unfold padTo8 at h
  by_cases h6 : t.length < 6
  · rw [if_pos h6] at h
    exact absurd h (by simp)
  rw [if_neg h6] at h
  by_cases e6 : t.length = 6
  · rw [if_pos e6, Option.some_inj] at h
    subst h
    exact happ ['0', '0'] (by decide)
  rw [if_neg e6] at h
  by_cases e7 : t.length = 7
  · rw [if_pos e7, Option.some_inj] at h
    subst h
    exact happ ['0'] (by decide)
  rw [if_neg e7] at h
  by_cases e8 : t.length = 8
  · rw [if_pos e8, Option.some_inj] at h
    subst h
    exact ht
  rw [if_neg e8] at h
  by_cases e9 : t.length = 9
  · rw [if_pos e9, Option.some_inj] at h
    subst h
    exact htake
  · rw [if_neg e9, Option.some_inj] at h
    subst h
    exact htake

/-- Producing a value requires at least 6 cleaned characters. -/
theorem clean_core_spec (s r : List Char) (h : clean_core s = some r) :
    r.length = 8 ∧ ∀ c ∈ r, isCusipChar c = true :=
  ⟨padTo8_length (cleanedForm s) r h,
   padTo8_chars (cleanedForm s) r (cleanedForm_chars s) h⟩

/-- The empty-string guard of `clean_cusip` coincides with the core
pipeline, whose length check already returns the absent value on the empty
string; hence the guard can be folded away for string inputs. -/
theorem clean_cusip_str (s : List Char) :
    clean_cusip (PyValue.str s) = clean_core s := by
  by_cases h : s = []
  · subst h
    rfl
  · simp [clean_cusip, h]

/-! ### Lemmas about the keep-first deduplication pass -/

/-- The deduplication pass only removes rows: its output is a sublist of
its input (in particular original order is preserved). -/
theorem dedupFirstAux_sublist {α β : Type} [DecidableEq β] (key : α → β) :
    ∀ (seen : List β) (l : List α), (dedupFirstAux key seen l).Sublist l := by
  intro seen l
  induction l generalizing seen with
  | nil => exact List.Sublist.refl []
  | cons x rest ih =>
    unfold dedupFirstAux
    by_cases h : key x ∈ seen
    · rw [if_pos h]
      exact (ih seen).trans (List.sublist_cons_self x rest)
    · rw [if_neg h]
      exact (ih (key x :: seen)).cons₂ x

/-- Keys of retained rows were not in the seen set the pass started from. -/
theorem dedupFirstAux_key_not_seen {α β : Type} [DecidableEq β] (key : α → β) :
    ∀ (seen : List β) (l : List α) (p : α),
      p ∈ dedupFirstAux key seen l → key p ∉ seen := by
  intro seen l
  induction l generalizing seen with
  | nil => intro p hp; exact absurd hp (List.not_mem_nil p)
  | cons x rest ih =>
    intro p hp
    unfold dedupFirstAux at hp
    by_cases h : key x ∈ seen
    · rw [if_pos h] at hp
      exact ih seen p hp
    · rw [if_neg h] at hp
      rcases List.mem_cons.mp hp with rfl | hp'
      · exact h
      · intro hmem
        exact ih (key x :: seen) p hp' (List.mem_cons_of_mem _ hmem)

/-- The retained rows carry pairwise distinct keys. -/
theorem dedupFirstAux_keys_nodup {α β : Type} [DecidableEq β] (key : α → β) :
    ∀ (seen : List β) (l : List α), ((dedupFirstAux key seen l).map key).Nodup := by
  intro seen l
  induction l generalizing seen with
  | nil => exact List.nodup_nil
  | cons x rest ih =>
    unfold dedupFirstAux
    by_cases h : key x ∈ seen
    · rw [if_pos h]
      exact ih seen
    · rw [if_neg h]
      rw [List.map_cons, List.nodup_cons]
      refine ⟨?_, ih (key x :: seen)⟩
      intro hmem
      obtain ⟨p, hp, hkey⟩ := List.mem_map.mp hmem
      exact dedupFirstAux_key_not_seen key (key x :: seen) rest p hp
        (hkey ▸ List.mem_cons_self (key x) seen)

/-- Every input row whose key is not already seen has a retained
representative with the same key. -/
theorem dedupFirstAux_complete {α β : Type} [DecidableEq β] (key : α → β) :
    ∀ (seen : List β) (l : List α) (q : α), q ∈ l → key q ∉ seen →
      ∃ p ∈ dedupFirstAux key seen l, key p = key q := by
  intro seen l
  induction l generalizing seen with
  | nil => intro q hq; exact absurd hq (List.not_mem_nil q)
  | cons x rest ih =>
    intro q hq hqs
    unfold dedupFirstAux
    by_cases h : key x ∈ seen
    · rw [if_pos h]
      rcases List.mem_cons.mp hq with rfl | hq'
      · exact absurd h hqs
      · exact ih seen q hq' hqs
    · rw [if_neg h]
      by_cases hk : key q = key x
      · exact ⟨x, List.mem_cons_self x _, hk.symm⟩
      · rcases List.mem_cons.mp hq with rfl | hq'
        · exact absurd rfl hk
        · obtain ⟨p, hp, hkey⟩ := ih (key x :: seen) q hq'
            (by
              intro hmem
              rcases List.mem_cons.mp hmem with he | hm
              · exact hk he
              · exact hqs hm)
          exact ⟨p, List.mem_cons_of_mem x hp, hkey⟩

/-- On an input whose index component strictly increases along the list,
the deduplication pass keeps the row with the smallest index among rows of
equal key: every input row with the key of a retained row sits at the same
or a later index. -/
theorem dedupFirstAux_first {α β : Type} [DecidableEq β] (key : α → β) (idx : α → Nat) :
    ∀ (seen : List β) (l : List α), l.Pairwise (fun a b => idx a < idx b) →
      ∀ p ∈ dedupFirstAux key seen l, ∀ q ∈ l, key q = key p → idx p ≤ idx q := by
  intro seen l
  induction l generalizing seen with
  | nil => intro _ p hp; exact absurd hp (List.not_mem_nil p)
  | cons x rest ih =>
    intro hpw p hp q hq hkey
    obtain ⟨hx, hrest⟩ := List.pairwise_cons.mp hpw
    unfold dedupFirstAux at hp
    by_cases h : key x ∈ seen
    · rw [if_pos h] at hp
      rcases List.mem_cons.mp hq with rfl | hq'
      · exact absurd (hkey ▸ h) (dedupFirstAux_key_not_seen key seen rest p hp)
      · exact ih seen hrest p hp q hq' hkey
    · rw [if_neg h] at hp
      rcases List.mem_cons.mp hp with rfl | hp'
      · rcases List.mem_cons.mp hq with rfl | hq'
        · exact Nat.le_refl _
        · exact Nat.le_of_lt (hx q hq')
      · rcases List.mem_cons.mp hq with rfl | hq'
        · exact absurd (hkey ▸ List.mem_cons_self (key q) seen)
            (dedupFirstAux_key_not_seen key (key q :: seen) rest p hp')
        · exact ih (key x :: seen) hrest p hp' q hq' hkey

/-! ### Lemmas about the annotated record list -/

/-- Indices produced by enumeration from `n` are at least `n`. -/
theorem enumFrom_fst_ge {α : Type} :
    ∀ (n : Nat) (l : List α) (p : Nat × α), p ∈ List.enumFrom n l → n ≤ p.1 := by
  intro n l
  induction l generalizing n with
  | nil => intro p hp; exact absurd hp (List.not_mem_nil p)
  | cons x xs ih =>
    intro p hp
    rcases List.mem_cons.mp hp with rfl | hp'
    · exact Nat.le_refl n
    · exact Nat.le_of_succ_le (ih (n + 1) p hp')

/-- Indices strictly increase along an enumerated list. -/
theorem enumFrom_pairwise {α : Type} :
    ∀ (n : Nat) (l : List α),
      (List.enumFrom n l).Pairwise (fun a b => a.1 < b.1) := by
  intro n l
  induction l generalizing n with
  | nil => exact List.Pairwise.nil
  | cons x xs ih =>
    refine List.pairwise_cons.mpr ⟨?_, ih (n + 1)⟩
    intro b hb
    exact Nat.lt_of_lt_of_le (Nat.lt_succ_self n) (enumFrom_fst_ge (n + 1) xs b hb)

/-- Indices strictly increase along the annotated record list. -/
theorem withClean_pairwise (rows : List PyValue) :
    (withClean rows).Pairwise (fun a b => a.1 < b.1) := by
  unfold withClean List.enum
  exact List.Pairwise.map _ (fun a b hab => hab) (enumFrom_pairwise 0 rows)

/-- The annotation of a record is the normalization of its raw value. -/
theorem withClean_snd (rows : List PyValue) :
    ∀ p ∈ withClean rows, p.2.2 = clean_cusip p.2.1 := by
  intro p hp
  unfold withClean at hp
  obtain ⟨q, _, rfl⟩ := List.mem_map.mp hp
  rfl

/-- Membership in the filtered output implies membership in the annotated
input together with a present canonical identifier. -/
theorem processRows_mem (rows : List PyValue) :
    ∀ p ∈ processRows rows, p ∈ withClean rows ∧ p.2.2.isSome = true := by
  intro p hp
  have hp' : p ∈ dropnaClean (withClean rows) :=
    (dedupFirstAux_sublist _ [] _).subset hp
  have := List.mem_filter.mp hp'
  exact ⟨this.1, by simpa using this.2⟩

/-! ### Claims -/

/-- C1: for every input value, `clean_cusip` returns (it is a total
function of the embedded scalar), and its result is either the absent
value or a string of exactly 8 characters drawn only from A-Z and 0-9. -/
theorem claim_C1 (v : PyValue) :
    clean_cusip v = none ∨
      ∃ r, clean_cusip v = some r ∧ r.length = 8 ∧ ∀ c ∈ r, isCusipChar c = true := by
  have hcore : ∀ s : List Char, clean_core s = none ∨
      ∃ r, clean_core s = some r ∧ r.length = 8 ∧ ∀ c ∈ r, isCusipChar c = true := by
    intro s
    cases h : clean_core s with
    | none => exact Or.inl rfl
    | some r => exact Or.inr ⟨r, rfl, clean_core_spec s r h⟩
  cases v with
  | na => exact Or.inl rfl
  | str s =>
    rw [clean_cusip_str]
    exact hcore s
  | nonStr r => exact hcore r

theorem claim_C1_witness :
    clean_cusip (PyValue.str ['A', 'B', '1', '2', '3', '4', '0']) = none ∨
      ∃ r, clean_cusip (PyValue.str ['A', 'B', '1', '2', '3', '4', '0']) = some r ∧
        r.length = 8 ∧ ∀ c ∈ r, isCusipChar c = true :=
  claim_C1 (PyValue.str ['A', 'B', '1', '2', '3', '4', '0'])

/-- C2: for every raw string whose cleaned form has length 6, 7 or 8,
`clean_cusip` returns exactly the cleaned form right-padded with zeros to
length 8; the result has length 8 and its first `len` characters are the
cleaned form. -/
theorem claim_C2 (s : List Char)
    (h1 : 6 ≤ (cleanedForm s).length) (h2 : (cleanedForm s).length ≤ 8) :
    clean_cusip (PyValue.str s)
      = some (cleanedForm s ++ List.replicate (8 - (cleanedForm s).length) '0') ∧
    (cleanedForm s ++ List.replicate (8 - (cleanedForm s).length) '0').length = 8 ∧
    (cleanedForm s ++ List.replicate (8 - (cleanedForm s).length) '0').take
        (cleanedForm s).length = cleanedForm s := by
  refine ⟨?_, ?_, ?_⟩
  · rw [clean_cusip_str]
    unfold clean_core padTo8
    rcases (by omega :
        (cleanedForm s).length = 6 ∨ (cleanedForm s).length = 7 ∨
          (cleanedForm s).length = 8) with h | h | h
    · rw [if_neg (by omega), if_pos h, h]
      rfl
    · rw [if_neg (by omega), if_neg (by omega), if_pos h, h]
      rfl
    · rw [if_neg (by omega), if_neg (by omega), if_neg (by omega), if_pos h, h,
        show List.replicate (8 - 8) '0' = [] from rfl, List.append_nil]
  · simp only [List.length_append, List.length_replicate]
    omega
  · exact List.take_left (cleanedForm s) _

theorem claim_C2_witness :
    clean_cusip (PyValue.str ['A', 'B', '1', '2', '3', '4'])
      = some (cleanedForm ['A', 'B', '1', '2', '3', '4'] ++
          List.replicate (8 - (cleanedForm ['A', 'B', '1', '2', '3', '4']).length) '0') :=
  (claim_C2 ['A', 'B', '1', '2', '3', '4'] (by decide) (by decide)).1

/-- C3: for every raw string whose cleaned form has length strictly below
6, `clean_cusip` returns the absent value. -/
theorem claim_C3 (s : List Char) (h : (cleanedForm s).length < 6) :
    clean_cusip (PyValue.str s) = none := by
  rw [clean_cusip_str]
  unfold clean_core padTo8
  rw [if_pos h]

theorem claim_C3_witness :
    clean_cusip (PyValue.str ['A', 'B', '1', '2', '3']) = none :=
  claim_C3 ['A', 'B', '1', '2', '3'] (by decide)

/-- C4: for every raw string whose cleaned form has length at least 9,
`clean_cusip` returns the first 8 characters of the cleaned form; the
length-9 and length-above-9 branches of the source produce this same
result. -/
theorem claim_C4 (s : List Char) (h : 9 ≤ (cleanedForm s).length) :
    clean_cusip (PyValue.str s) = some ((cleanedForm s).take 8) := by
  rw [clean_cusip_str]
  unfold clean_core padTo8
  rw [if_neg (by omega), if_neg (by omega), if_neg (by omega), if_neg (by omega)]
  by_cases h9 : (cleanedForm s).length = 9
  · rw [if_pos h9]
  · rw [if_neg h9]

theorem claim_C4_witness :
    clean_cusip (PyValue.str ['A', 'B', '1', '2', '3', '4', '5', '6', '7', '8'])
      = some ((cleanedForm ['A', 'B', '1', '2', '3', '4', '5', '6', '7', '8']).take 8) :=
  claim_C4 ['A', 'B', '1', '2', '3', '4', '5', '6', '7', '8'] (by decide)

/-- C7: `clean_cusip` is idempotent on its non-absent results: feeding a
produced canonical identifier back through the normalizer returns it
unchanged. -/
theorem claim_C7 (s r : List Char) (h : clean_cusip (PyValue.str s) = some r) :
    clean_cusip (PyValue.str r) = some r := by
  rw [clean_cusip_str] at h
  obtain ⟨hlen, hchars⟩ := clean_core_spec s r h
  rw [clean_cusip_str]
  unfold clean_core padTo8
  rw [cleanedForm_fixed r hchars]
  rw [if_neg (by omega), if_neg (by omega), if_neg (by omega), if_pos hlen]

theorem claim_C7_witness :
    clean_cusip (PyValue.str ['A', 'B', '1', '2', '3', '4', '0', '0'])
      = some ['A', 'B', '1', '2', '3', '4', '0', '0'] :=
  claim_C7 ['A', 'B', '1', '2', '3', '4', '0'] ['A', 'B', '1', '2', '3', '4', '0', '0']
    (by decide)

/-- C8: `clean_cusip` is insensitive to letter case, to whitespace, and to
characters that are neither letters nor digits: two raw strings that agree
after removing every character outside A-Z0-9 (read case-insensitively, as
the spec's punctuation/whitespace wording implies: a lowercase letter is a
case variant, covered by the case clause) and normalizing case produce the
same result. Leading/trailing whitespace and interior punctuation are
special cases of such removed characters. -/
theorem claim_C8 (s t : List Char)
    (h : (s.filter fun c => isCusipChar (pyUpperChar c)).map pyUpperChar
       = (t.filter fun c => isCusipChar (pyUpperChar c)).map pyUpperChar) :
    clean_cusip (PyValue.str s) = clean_cusip (PyValue.str t) := by
  rw [clean_cusip_str, clean_cusip_str]
  unfold clean_core
  rw [cleanedForm_eq, cleanedForm_eq, filter_comm_map, filter_comm_map, h]

theorem claim_C8_witness :
    clean_cusip (PyValue.str ['a', 'b', '1', '2', '3', '4', ' ', '0'])
      = clean_cusip (PyValue.str ['A', 'B', '1', '2', '3', '4', '0']) :=
  claim_C8 ['a', 'b', '1', '2', '3', '4', ' ', '0'] ['A', 'B', '1', '2', '3', '4', '0']
    (by decide)

/-- C10: every non-absent, non-empty value is first converted with
`str(...)` and then processed by the same pipeline, so `clean_cusip` on a
non-string scalar agrees with `clean_cusip` on its string representation;
in particular the float-looking identifier "12345678.0" loses its decimal
point and normalizes to "12345678". -/
theorem claim_C10 (v : PyValue) (hna : v ≠ PyValue.na) (hemp : v ≠ PyValue.str []) :
    clean_cusip v = clean_cusip (PyValue.str (pyStr v)) ∧
    clean_cusip (PyValue.nonStr ("12345678.0".toList)) = some ("12345678".toList) := by
  constructor
  · cases v with
    | na => exact absurd rfl hna
    | str s => rfl
    | nonStr r =>
      rw [clean_cusip_str]
      rfl
  · decide

theorem claim_C10_witness :
    clean_cusip (PyValue.nonStr ("12345678.0".toList))
        = clean_cusip (PyValue.str (pyStr (PyValue.nonStr ("12345678.0".toList)))) ∧
    clean_cusip (PyValue.nonStr ("12345678.0".toList)) = some ("12345678".toList) :=
  claim_C10 (PyValue.nonStr ("12345678.0".toList)) (by decide) (by decide)

/-- C5: the filtering step removes every record whose raw identifier
normalizes to absent (retained records have a present canonical value and
come from the annotated input), keeps at most one record per canonical
identifier (the mapped canonical column is duplicate-free), keeps the
first occurrence in original order (any input record sharing a retained
record's canonical sits at the same or a later index, and every input
record with a present canonical is represented), preserves the original
order (sublist), and on the three-record example with identifiers
"AB12340", "ab1234 0", "ZZ999999" exactly 2 records remain. -/
theorem claim_C5 :
    (∀ rows : List PyValue, ∀ p ∈ processRows rows,
        p.2.2.isSome = true ∧ p ∈ withClean rows ∧
        ∀ q ∈ withClean rows, q.2.2 = p.2.2 → p.1 ≤ q.1) ∧
    (∀ rows : List PyValue, (processRows rows).Sublist (withClean rows)) ∧
    (∀ rows : List PyValue, ((processRows rows).map fun u => u.2.2).Nodup) ∧
    (∀ rows : List PyValue, ∀ r ∈ withClean rows, r.2.2.isSome = true →
        ∃ u ∈ processRows rows, u.2.2 = r.2.2) ∧
    (processRows exampleRows).length = 2 := by
  refine ⟨?_, ?_, ?_, ?_, by decide⟩
  · intro rows p hp
    obtain ⟨hpw, hps⟩ := processRows_mem rows p hp
    refine ⟨hps, hpw, ?_⟩
    intro q hq hqp
    have hqd : q ∈ dropnaClean (withClean rows) := by
      apply List.mem_filter.mpr
      refine ⟨hq, ?_⟩
      simp only [hqp]
      simpa using hps
    have hpair : (dropnaClean (withClean rows)).Pairwise (fun a b => a.1 < b.1) :=
      List.Pairwise.sublist (List.filter_sublist _) (withClean_pairwise rows)
    have hp' : p ∈ dedupFirstAux (fun u : Nat × PyValue × Option (List Char) => u.2.2)
        [] (dropnaClean (withClean rows)) := hp
    exact dedupFirstAux_first (fun u => u.2.2) (fun u => u.1) [] _ hpair p hp' q hqd hqp
  · intro rows
    exact (dedupFirstAux_sublist _ [] _).trans (List.filter_sublist _)
  · intro rows
    exact dedupFirstAux_keys_nodup _ [] _
  · intro rows r hr hrs
    have hrd : r ∈ dropnaClean (withClean rows) := by
      apply List.mem_filter.mpr
      exact ⟨hr, by simpa using hrs⟩
    obtain ⟨u, hu, hkey⟩ :=
      dedupFirstAux_complete (fun u => u.2.2) [] _ r hrd (List.not_mem_nil _)
    exact ⟨u, hu, hkey⟩

theorem claim_C5_witness : (processRows exampleRows).length = 2 :=
  claim_C5.2.2.2.2

/-- C6: when the input lacks the `cusip` column, the operation signals the
schema failure, aborts, and no output is written (the result is never an
`ok` payload). -/
theorem claim_C6 (df : DataFrame) (h : df.hasCusipCol = false) :
    clean_cusip_file df = FileResult.schemaError ∧
    ∀ written, clean_cusip_file df ≠ FileResult.ok written := by
  have heq : clean_cusip_file df = FileResult.schemaError := by
    unfold clean_cusip_file
    rw [h]
    rfl
  refine ⟨heq, ?_⟩
  intro w hw
  rw [heq] at hw
  exact FileResult.noConfusion hw

theorem claim_C6_witness :
    clean_cusip_file ⟨false, exampleRows⟩ = FileResult.schemaError ∧
    ∀ written, clean_cusip_file ⟨false, exampleRows⟩ ≠ FileResult.ok written :=
  claim_C6 ⟨false, exampleRows⟩ rfl

/-- C9: an absent (None/NaN) or empty-string raw identifier normalizes to
the absent value, and no record carrying such a raw identifier survives
the filtering step. -/
theorem claim_C9 :
    clean_cusip PyValue.na = none ∧
    clean_cusip (PyValue.str []) = none ∧
    ∀ rows : List PyValue, ∀ p ∈ processRows rows,
      p.2.1 ≠ PyValue.na ∧ p.2.1 ≠ PyValue.str [] := by
  refine ⟨rfl, rfl, ?_⟩
  intro rows p hp
  obtain ⟨hpw, hps⟩ := processRows_mem rows p hp
  have hclean : p.2.2 = clean_cusip p.2.1 := withClean_snd rows p hpw
  constructor
  · intro hna
    have hnone : p.2.2 = none := by rw [hclean, hna]; rfl
    rw [hnone] at hps
    simp at hps
  · intro hemp
    have hnone : p.2.2 = none := by rw [hclean, hemp]; rfl
    rw [hnone] at hps
    simp at hps

theorem claim_C9_witness : clean_cusip PyValue.na = none :=
  claim_C9.1

end FinSTATA
